import Mathlib

/-!
Verification of the contraction_fix substitution engine
(src/contraction_fix/fixer.py) via a shallow embedding.

Texts and dictionary keys are modelled as `List Char`.  The regex-based
matcher of `ContractionFixer.pattern` is embedded as an explicit
longest-first alternation scanner with the same lookaround boundary
semantics; `re.sub` is embedded as a left-to-right scan that substitutes
non-overlapping matches.  Word characters are modelled for the ASCII
fragment (Python `\w` additionally covers non-ASCII word characters, which
do not occur in any input considered here).  Case folding is modelled for
ASCII, matching Python `str.lower` / `str.upper` / `str.capitalize` /
`str.isupper` on ASCII text.

Apostrophe characters are built with `Char.ofNat`.  In the source file as
given, every alternative-apostrophe pair — the `replace` calls, the
`endswith` tuple and the partition test — is written with the ASCII
apostrophe (codepoint 39) in both positions, so the alternate-apostrophe
machinery degenerates to the identity.  The model mirrors those bytes:
`aposA` and `aposT` name the two occurrences of each pair and both denote
codepoint 39.
-/

namespace ContractionFix

abbrev LC := List Char

/-- ASCII apostrophe, codepoint 39. -/
def aposA : Char := Char.ofNat 39

/-- The alternative apostrophe of the source as given: both positions of
each alternative-apostrophe literal pair hold the ASCII apostrophe, so
this equals `aposA` (codepoint 39). -/
def aposT : Char := Char.ofNat 39

/-- Period character. -/
def dotC : Char := '.'

/-- ASCII lowercasing of a single character, as Python `str.lower` acts on
ASCII text.  Written as an explicit table so that facts about it follow by
case analysis. -/
def pyLower (c : Char) : Char :=
  match c with
  | 'A' => 'a' | 'B' => 'b' | 'C' => 'c' | 'D' => 'd' | 'E' => 'e'
  | 'F' => 'f' | 'G' => 'g' | 'H' => 'h' | 'I' => 'i' | 'J' => 'j'
  | 'K' => 'k' | 'L' => 'l' | 'M' => 'm' | 'N' => 'n' | 'O' => 'o'
  | 'P' => 'p' | 'Q' => 'q' | 'R' => 'r' | 'S' => 's' | 'T' => 't'
  | 'U' => 'u' | 'V' => 'v' | 'W' => 'w' | 'X' => 'x' | 'Y' => 'y'
  | 'Z' => 'z'
  | other => other

/-- ASCII uppercasing of a single character, as Python `str.upper` acts on
ASCII text. -/
def pyUpper (c : Char) : Char :=
  match c with
  | 'a' => 'A' | 'b' => 'B' | 'c' => 'C' | 'd' => 'D' | 'e' => 'E'
  | 'f' => 'F' | 'g' => 'G' | 'h' => 'H' | 'i' => 'I' | 'j' => 'J'
  | 'k' => 'K' | 'l' => 'L' | 'm' => 'M' | 'n' => 'N' | 'o' => 'O'
  | 'p' => 'P' | 'q' => 'Q' | 'r' => 'R' | 's' => 'S' | 't' => 'T'
  | 'u' => 'U' | 'v' => 'V' | 'w' => 'W' | 'x' => 'X' | 'y' => 'Y'
  | 'z' => 'Z'
  | other => other

/-- Lowercase a whole token (Python `str.lower` on ASCII). -/
def lowerL (l : LC) : LC := l.map pyLower

/-- Python `str.isupper`: at least one cased character and every cased
character uppercase (ASCII: cased characters are the letters). -/
def pyIsUpper (l : LC) : Bool :=
  l.any (fun c => c.isAlpha) && l.all (fun c => !c.isAlpha || c.isUpper)

/-- Python `str.capitalize`: first character uppercased, the rest
lowercased. -/
def pyCapitalize (l : LC) : LC :=
  match l with
  | [] => []
  | c :: cs => pyUpper c :: cs.map pyLower

/-- First character is an uppercase letter (`word[0].isupper()` in the
source); `false` on the empty token. -/
def firstUpper : LC → Bool
  | [] => false
  | c :: _ => c.isUpper

/-- Python regex word character `\w`, ASCII fragment: alphanumeric or
underscore. -/
def isWordChar (c : Char) : Bool := c.isAlphanum || c = '_'

theorem isWordChar_pyLower (c : Char) : isWordChar (pyLower c) = isWordChar c := by
  unfold pyLower
  split <;> rfl

theorem isWordChar_pyUpper (c : Char) : isWordChar (pyUpper c) = isWordChar c := by
  unfold pyUpper
  split <;> rfl

/-- Association list with string keys and values: the model of a Python
dict whose iteration order is insertion order. -/
abbrev Assoc := List (LC × LC)

/-- Dict lookup. -/
def alookup : Assoc → LC → Option LC
  | [], _ => none
  | (k0, v0) :: rest, k => if k0 = k then some v0 else alookup rest k

/-- Dict insertion with Python semantics: an existing key keeps its
position and gets the new value, a new key is appended. -/
def ainsert : Assoc → LC → LC → Assoc
  | [], k, v => [(k, v)]
  | (k0, v0) :: rest, k, v =>
    if k0 = k then (k, v) :: rest else (k0, v0) :: ainsert rest k v

theorem alookup_ainsert_self (d : Assoc) (k v : LC) :
    alookup (ainsert d k v) k = some v := by
  induction d with
  | nil => simp [ainsert, alookup]
  | cons kv rest ih =>
    obtain ⟨k0, v0⟩ := kv
    by_cases h : k0 = k
    · simp [ainsert, h, alookup]
    · simp [ainsert, h, alookup, ih]

theorem alookup_ainsert_ne (d : Assoc) (k v kp : LC) (h : kp ≠ k) :
    alookup (ainsert d k v) kp = alookup d kp := by
  induction d with
  | nil => simp [ainsert, alookup, Ne.symm h]
  | cons kv rest ih =>
    obtain ⟨k0, v0⟩ := kv
    by_cases h0 : k0 = k
    · subst h0
      simp [ainsert, alookup, Ne.symm h]
    · simp only [ainsert, if_neg h0, alookup]
      by_cases h1 : k0 = kp <;> simp [h1, ih]

/-- Dict deletion (`dict.pop(key, None)`). -/
def aerase (d : Assoc) (k : LC) : Assoc :=
  d.filter (fun kv => !(decide (kv.1 = k)))

/-- Boolean membership of a string in a list of strings. -/
def memL (l : List LC) (x : LC) : Bool := l.any (fun y => decide (y = x))

/-- Whether a key contains either apostrophe glyph; this routes the key to
the lookaround-bounded partition of the compiled pattern. -/
def hasApos (k : LC) : Bool :=
  k.any (fun c => decide (c = aposA) || decide (c = aposT))

/-- Whether a key contains the ASCII apostrophe (`"'" in key` checks in
the source). -/
def hasAposA (k : LC) : Bool := k.any (fun c => decide (c = aposA))

/-- The `key.replace` of the source that rewrites the apostrophe glyph
(the identity in the source as given, whose two literals coincide). -/
def replaceApos (k : LC) : LC :=
  k.map (fun c => if c = aposA then aposT else c)

/-- Token starts with the ASCII apostrophe (`startswith` in the source). -/
def startsApos : LC → Bool
  | [] => false
  | c :: _ => decide (c = aposA)

/-- Suffix test on tokens. -/
def endsWithL (suffix l : LC) : Bool := suffix.isSuffixOf l

/-- Case-insensitive literal match of a (lowercase) key against the text
suffix starting at the scan position: each text character is lowercased
and compared with the key character.  All dictionary keys are lowercase
by construction (the loader and `add_contraction` lowercase them), so this
is `re.IGNORECASE` matching of the escaped key. -/
def litMatch : LC → LC → Bool
  | [], _ => true
  | _ :: _, [] => false
  | kc :: ks, c :: cs => decide (pyLower c = kc) && litMatch ks cs

theorem litMatch_length {k rest : LC} (h : litMatch k rest = true) :
    k.length ≤ rest.length := by
  induction k generalizing rest with
  | nil => simp
  | cons kc ks ih =>
    cases rest with
    | nil => simp [litMatch] at h
    | cons c cs =>
      simp only [litMatch, Bool.and_eq_true] at h
      simpa [List.length_cons, Nat.succ_le_succ_iff] using ih h.2

theorem litMatch_get {k rest : LC} (h : litMatch k rest = true)
    (i : ℕ) (hi : i < k.length) :
    k.get ⟨i, hi⟩ =
      pyLower (rest.get ⟨i, Nat.lt_of_lt_of_le hi (litMatch_length h)⟩) := by
  induction k generalizing rest i with
  | nil => simp at hi
  | cons kc ks ih =>
    cases rest with
    | nil => simp [litMatch] at h
    | cons c cs =>
      simp only [litMatch, Bool.and_eq_true, decide_eq_true_eq] at h
      cases i with
      | zero => simpa using h.1.symm
      | succ j =>
        simpa using ih h.2 j (Nat.lt_of_succ_lt_succ hi)

/-- Character of the text at an absolute index, `none` out of range. -/
def charAt (text : LC) (i : ℕ) : Option Char := text.get? i

/-- Whether the character at an index is a word character (out-of-range
counts as non-word, like the edges of the text for regex lookarounds). -/
def isWordAt (text : LC) (i : ℕ) : Bool :=
  match charAt text i with
  | some c => isWordChar c
  | none => false

/-- Regex `\b` at an absolute position: exactly one of the two adjacent
sides is a word character. -/
def wordBoundary (text : LC) (i : ℕ) : Bool :=
  (decide (i ≠ 0) && isWordAt text (i - 1)) != isWordAt text i

/-- Eligibility of an apostrophe-partition key at a position: literal
case-insensitive match plus the lookarounds of
`(?<!\w)(?:...)(?!\w)` in `pattern`. -/
def aElig (k : LC) (text : LC) (pos : ℕ) : Bool :=
  litMatch k (text.drop pos) &&
  !(decide (pos ≠ 0) && isWordAt text (pos - 1)) &&
  !isWordAt text (pos + k.length)

/-- Eligibility of a plain-word-partition key at a position: literal
case-insensitive match plus the `\b(?:...)\b` boundaries in `pattern`. -/
def wElig (k : LC) (text : LC) (pos : ℕ) : Bool :=
  litMatch k (text.drop pos) &&
  wordBoundary text pos &&
  wordBoundary text (pos + k.length)

/-- Key ordering used by `pattern`: Python
`sorted(keys, key=(-len(x), x))`, i.e. longer first, then lexicographic
by codepoint. -/
def lexLeB : LC → LC → Bool
  | [], _ => true
  | _ :: _, [] => false
  | a :: as, b :: bs =>
    if a.toNat = b.toNat then lexLeB as bs else decide (a.toNat < b.toNat)

/-- The sort relation on keys: strictly longer first, lexicographic among
equal lengths. -/
def keyOrd (a b : LC) : Prop :=
  b.length < a.length ∨ (a.length = b.length ∧ lexLeB a b = true)

instance : DecidableRel keyOrd := fun a b => by
  unfold keyOrd
  infer_instance

theorem lexLeB_total (a b : LC) : lexLeB a b = true ∨ lexLeB b a = true := by
  induction a generalizing b with
  | nil => left; rfl
  | cons x xs ih =>
    cases b with
    | nil => right; rfl
    | cons y ys =>
      by_cases hxy : x.toNat = y.toNat
      · rcases ih ys with h | h
        · left; simp [lexLeB, hxy, h]
        · right; simp [lexLeB, hxy.symm, h]
      · rcases Nat.lt_or_ge x.toNat y.toNat with h | h
        · left; simp [lexLeB, hxy, h]
        · have hlt : y.toNat < x.toNat := by omega
          have hyx : ¬y.toNat = x.toNat := by omega
          right
          simp [lexLeB, hyx, hlt]

theorem lexLeB_trans {a b c : LC} (h1 : lexLeB a b = true)
    (h2 : lexLeB b c = true) : lexLeB a c = true := by
  induction a generalizing b c with
  | nil => rfl
  | cons x xs ih =>
    cases b with
    | nil => simp [lexLeB] at h1
    | cons y ys =>
      cases c with
      | nil => simp [lexLeB] at h2
      | cons z zs =>
        simp only [lexLeB] at h1 h2 ⊢
        by_cases hxy : x.toNat = y.toNat
        · by_cases hyz : y.toNat = z.toNat
          · have hxz : x.toNat = z.toNat := hxy.trans hyz
            rw [if_pos hxy] at h1
            rw [if_pos hyz] at h2
            rw [if_pos hxz]
            exact ih h1 h2
          · rw [if_neg hyz] at h2
            have hlt : y.toNat < z.toNat := of_decide_eq_true h2
            have hxz : x.toNat ≠ z.toNat := by omega
            rw [if_neg hxz]
            have : x.toNat < z.toNat := by omega
            exact decide_eq_true this
        · rw [if_neg hxy] at h1
          have hlt1 : x.toNat < y.toNat := of_decide_eq_true h1
          by_cases hyz : y.toNat = z.toNat
          · have hxz : x.toNat ≠ z.toNat := by omega
            rw [if_neg hxz]
            exact decide_eq_true (by omega)
          · have hlt2 : y.toNat < z.toNat := of_decide_eq_true (by rwa [if_neg hyz] at h2)
            have hxz : x.toNat ≠ z.toNat := by omega
            rw [if_neg hxz]
            exact decide_eq_true (by omega)

instance : IsTotal LC keyOrd where
  total a b := by
    unfold keyOrd
    rcases Nat.lt_trichotomy a.length b.length with h | h | h
    · right; left; exact h
    · rcases lexLeB_total a b with hl | hl
      · left; right; exact ⟨h, hl⟩
      · right; right; exact ⟨h.symm, hl⟩
    · left; left; exact h

instance : IsTrans LC keyOrd where
  trans a b c hab hbc := by
    unfold keyOrd at *
    rcases hab with h1 | ⟨e1, l1⟩
    · rcases hbc with h2 | ⟨e2, _⟩
      · left; omega
      · left; omega
    · rcases hbc with h2 | ⟨e2, l2⟩
      · left; omega
      · right; exact ⟨e1.trans e2, lexLeB_trans l1 l2⟩

/-- `sorted(keys, key=lambda x: (-len(x), x))` from `pattern`. -/
def sortKeys (l : List LC) : List LC := List.insertionSort keyOrd l

/-- Apostrophe-bearing partition of the compiled forward pattern, in
alternation order. -/
def aKeys (d : Assoc) : List LC :=
  (sortKeys (d.map Prod.fst)).filter hasApos

/-- Plain-word partition of the compiled forward pattern, in alternation
order. -/
def wKeys (d : Assoc) : List LC :=
  (sortKeys (d.map Prod.fst)).filter (fun k => !hasApos k)

/-- The compiled forward matcher applied at one position: the apostrophe
partition is tried first (it comes first in the alternation), each
partition longest-key-first, and the first key whose literal match and
boundary conditions all hold wins. -/
def matchAtD (d : Assoc) (text : LC) (pos : ℕ) : Option LC :=
  match (aKeys d).find? (fun k => aElig k text pos) with
  | some k => some k
  | none => (wKeys d).find? (fun k => wElig k text pos)

/-- One pass of `Pattern.sub`: scan left to right, at each position ask
the matcher; on a match emit the replacement of the matched surface and
continue after it, otherwise copy one character.  `fuel` bounds the
number of steps; every step consumes at least one character, so
`text.length` fuel always suffices.  Defensively, a zero-length match
(impossible for the dictionaries considered, whose keys are nonempty)
copies one character. -/
def scanSub (m : ℕ → Option LC) (rm : LC → LC) (text : LC) :
    ℕ → ℕ → LC
  | 0, _ => []
  | fuel + 1, pos =>
    match charAt text pos with
    | none => []
    | some c =>
      match m pos with
      | some k =>
        if k.length = 0 then c :: scanSub m rm text fuel (pos + 1)
        else rm ((text.drop pos).take k.length) ++
             scanSub m rm text fuel (pos + k.length)
      | none => c :: scanSub m rm text fuel (pos + 1)

theorem scanSub_no_match (m : ℕ → Option LC) (rm : LC → LC) (text : LC) :
    ∀ fuel pos, (∀ p, p < text.length → m p = none) →
      text.length - pos ≤ fuel →
      scanSub m rm text fuel pos = text.drop pos := by
  intro fuel
  induction fuel with
  | zero =>
    intro pos _ hf
    have : text.length ≤ pos := by omega
    simp [scanSub, List.drop_eq_nil_of_le this]
  | succ n ih =>
    intro pos hm hf
    by_cases hp : pos < text.length
    · have hc : charAt text pos = some (text.get ⟨pos, hp⟩) := by
        simp [charAt, List.get?_eq_get hp]
      rw [scanSub, hc, hm pos hp, ih (pos + 1) hm (by omega)]
      exact (List.getElem_cons_drop text pos hp)
    · have hc : charAt text pos = none := by
        simp only [charAt]
        exact List.get?_eq_none.mpr (by omega)
      rw [scanSub, hc]
      exact (List.drop_eq_nil_of_le (by omega)).symm

/-- `CONTRACTION_BASES`: the fixed pronoun/determiner/question-word set. -/
def contractionBases : List LC :=
  ["he", "she", "it", "what", "who", "that", "there", "here", "where",
   "when", "why", "how", "this", "everyone", "somebody", "someone",
   "something", "nobody", "let"].map String.toList

/-- `TIME_WORDS`: the fixed time-word set. -/
def timeWords : List LC :=
  ["today", "tomorrow", "tonight", "morning", "evening", "afternoon",
   "week", "month", "year", "century", "monday", "tuesday", "wednesday",
   "thursday", "friday", "saturday", "sunday"].map String.toList

/-- `MONTHS`: the month list of the source (eleven entries; the source
tuple does not contain the month of May). -/
def MONTHS : List LC :=
  ["january", "february", "march", "april", "june", "july",
   "august", "september", "october", "november", "december"].map String.toList

/-- The month-abbreviation entries added to the combined table at
construction: `month[:3] + "."` mapped to the full month name. -/
def monthEntries : Assoc :=
  MONTHS.map (fun m => (m.take 3 ++ [dotC], m))

/-- `word[:-2].lower()`: the lowercased base of a candidate possessive
token. -/
def sBase (word : LC) : LC := (word.take (word.length - 2)).map pyLower

/-- `base.endswith(('s','x','z')) or base.endswith(('ch','sh'))`. -/
def endsSXZ (base : LC) : Bool :=
  endsWithL ['s'] base || endsWithL ['x'] base || endsWithL ['z'] base ||
  endsWithL ['c', 'h'] base || endsWithL ['s', 'h'] base

/-- `_is_contraction_s_optimized`: decide whether a token ending in the
apostrophe-s suffix is a contraction (`true`) or a possessive (`false`). -/
def isContractionS (word : LC) : Bool :=
  if word.length < 3 then false
  else if memL contractionBases (sBase word) then true
  else if memL timeWords (sBase word) then true
  else if endsSXZ (sBase word) then false
  else !firstUpper word

/-- Case transfer from the matched surface onto the stored replacement,
as in `_fix_single_optimized` and `_contract_single_optimized`:
all-uppercase surface gives `replacement.upper()`, a leading uppercase
letter gives `replacement.capitalize()`, otherwise the replacement is
emitted as stored. -/
def recase (m repl : LC) : LC :=
  if pyIsUpper m then repl.map pyUpper
  else if firstUpper m then pyCapitalize repl
  else repl

/-- The first apostrophe-s suffix checked by
`matched_text.endswith(("'s", "'s"))`. -/
def aposAS : LC := [aposA, 's']

/-- The second apostrophe-s suffix of the same `endswith` tuple (equal to
the first in the source as given). -/
def aposTS : LC := [aposT, 's']

/-- `replace_match` inside `_fix_single_optimized`: the possessive
fast-path for apostrophe-s surfaces, then dictionary lookup of the
lowercased surface (falling back to the alternate-apostrophe spelling),
then case-preserving replacement; an unmatched lookup returns the
surface unchanged. -/
def replaceMatch (d : Assoc) (surface : LC) : LC :=
  if (endsWithL aposAS surface || endsWithL aposTS surface) &&
     !isContractionS surface then surface
  else
    let low := lowerL surface
    match (alookup d low).orElse (fun _ => alookup d (replaceApos low)) with
    | none => surface
    | some repl => recase surface repl

/-- `SAFE_CONTRACTIONS` from the source, verbatim (including the
capitalised `I ...` phrases, which can never equal a lowercased
expansion, and the duplicated `would have`). -/
def safeContractions : List LC :=
  ["am not", "are not", "cannot", "could not", "did not", "do not",
   "does not", "had not", "has not", "have not", "he is", "he will",
   "he would", "here is", "how is", "is not", "it is", "it will",
   "it would", "let us", "must not", "shall not", "she is", "she will",
   "she would", "should not", "that is", "that will", "that would",
   "there is", "there will", "there would", "they are", "they have",
   "they will", "they would", "was not", "we are", "we have", "we will",
   "we would", "were not", "what is", "what will", "where is", "who is",
   "who will", "will not", "would not", "you are", "you have", "you will",
   "you would", "I am", "I have", "I will", "I would", "you all",
   "could have", "would have", "should have", "might have", "must have",
   "would have", "I would have", "going to", "want to", "got to",
   "kind of"].map String.toList

/-- `SAFE_INFORMAL` from the source: expansion to informal contraction. -/
def safeInformal : Assoc :=
  [("going".toList, "goin".toList ++ [aposA]),
   ("doing".toList, "doin".toList ++ [aposA]),
   ("nothing".toList, "nothin".toList ++ [aposA])]

/-- `_load_dict_optimized` after JSON parsing: keys lowercased, later
duplicates overwriting earlier ones. -/
def loadDict (raw : Assoc) : Assoc :=
  raw.foldl (fun acc kv => ainsert acc (lowerL kv.1) kv.2) []

/-- `dict.update`: fold the updates into the dictionary in order. -/
def updAll (d e : Assoc) : Assoc :=
  e.foldl (fun acc kv => ainsert acc kv.1 kv.2) d

/-- One step of the reverse-dictionary construction loop in
`_build_reverse_dict_optimized`. -/
def revStep (acc : Assoc) (kv : LC × LC) : Assoc :=
  let c := kv.1
  let el := lowerL kv.2
  if memL safeContractions el && hasAposA c && decide (2 < c.length) then
    match alookup acc el with
    | none => ainsert acc el c
    | some ex =>
      if (!startsApos c && startsApos ex) ||
         (decide (c.length < ex.length) && !startsApos c) then
        ainsert acc el c
      else acc
  else acc

/-- The standard-contraction pass of `_build_reverse_dict_optimized`. -/
def buildReverseStd (standard : Assoc) : Assoc :=
  standard.foldl revStep []

/-- `_build_reverse_dict_optimized`: the standard pass, then the
`SAFE_INFORMAL` update when informal contractions are enabled. -/
def buildReverse (standard : Assoc) (useInformal : Bool) : Assoc :=
  let r := buildReverseStd standard
  if useInformal then updAll r safeInformal else r

/-- `_add_alt_apostrophes_optimized`, forward table: every key containing
the ASCII apostrophe gains its alternate-apostrophe twin. -/
def addAltApos (d : Assoc) : Assoc :=
  (d.filter (fun kv => hasAposA kv.1)).foldl
    (fun acc kv => ainsert acc (replaceApos kv.1) kv.2) d

/-- `_add_alt_apostrophes_optimized`, reverse table: every value
containing the ASCII apostrophe is rewritten with the alternate
glyph (same key, updated value). -/
def addAltRev (r : Assoc) : Assoc :=
  r.map (fun kv => if hasAposA kv.2 then (kv.1, replaceApos kv.2) else kv)

/-- The engine state: the merged forward table and the reverse table.
The compiled patterns and memo caches of the source are derived, always
rebuilt after mutation, so the pure model recomputes them from the
tables on every use. -/
structure FixerState where
  combined : Assoc
  reverse : Assoc

/-- `ContractionFixer.__init__` given already-parsed dictionary data:
load the standard table, add the month abbreviations, merge the optional
informal and slang tables, build the reverse table, and add the
alternate-apostrophe twins to both. -/
def mkState (standardRaw informalRaw slangRaw : Assoc)
    (useInformal useSlang : Bool) : FixerState :=
  let standard := loadDict standardRaw
  let informal := if useInformal then loadDict informalRaw else []
  let slang := if useSlang then loadDict slangRaw else []
  let d := MONTHS.foldl (fun acc m => ainsert acc (m.take 3 ++ [dotC]) m) standard
  let d := if useInformal then updAll d informal else d
  let d := if useSlang then updAll d slang else d
  let r := buildReverse standard useInformal
  ⟨addAltApos d, addAltRev r⟩

/-- `add_contraction`: insert the lowercased key and its
alternate-apostrophe twin; when the key contains an ASCII apostrophe and
has length above one, register it in the reverse table unless a strictly
shorter entry already exists.  Pattern and cache invalidation is
implicit: the pure model derives matchers from the tables. -/
def addContraction (s : FixerState) (c e : LC) : FixerState :=
  let cl := lowerL c
  let el := lowerL e
  let d := ainsert s.combined cl e
  let d := ainsert d (replaceApos cl) e
  let r :=
    if hasAposA cl && decide (1 < cl.length) then
      match alookup s.reverse el with
      | none => ainsert s.reverse el cl
      | some ex =>
        if cl.length < ex.length then ainsert s.reverse el cl else s.reverse
    else s.reverse
  ⟨d, r⟩

/-- `remove_contraction`: delete the lowercased key and its twin from the
forward table; drop the reverse entry of its expansion when this key was
the registered contraction (the source guards with `if expansion`, so an
empty stored expansion is skipped). -/
def removeContraction (s : FixerState) (c : LC) : FixerState :=
  let cl := lowerL c
  let d := aerase (aerase s.combined cl) (replaceApos cl)
  let r :=
    match alookup s.combined cl with
    | none => s.reverse
    | some e =>
      if e.length = 0 then s.reverse
      else
        let el := lowerL e
        match alookup s.reverse el with
        | none => s.reverse
        | some reg => if reg = cl then aerase s.reverse el else s.reverse
  ⟨d, r⟩

/-- `fix` over a forward table: `pattern.sub(replace_match, text)`. -/
def fixD (d : Assoc) (text : LC) : LC :=
  scanSub (matchAtD d text) (replaceMatch d) text text.length 0

/-- `fix` on an engine state. -/
def fixS (s : FixerState) (text : LC) : LC := fixD s.combined text

/-- The compiled reverse matcher at one position: every reverse key is
compiled with plain `\b` boundaries, longest first. -/
def matchAtR (r : Assoc) (text : LC) (pos : ℕ) : Option LC :=
  (sortKeys (r.map Prod.fst)).find? (fun k => wElig k text pos)

/-- `replace_match` inside `_contract_single_optimized`: reverse lookup
of the lowercased surface with case-preserving replacement. -/
def contractReplace (r : Assoc) (surface : LC) : LC :=
  match alookup r (lowerL surface) with
  | none => surface
  | some repl => recase surface repl

/-- `contract` over a reverse table. -/
def contractD (r : Assoc) (text : LC) : LC :=
  scanSub (matchAtR r text) (contractReplace r) text text.length 0

/-- `contract` on an engine state. -/
def contractS (s : FixerState) (text : LC) : LC := contractD s.reverse text

/-- The `Match` record produced by `preview`: matched surface, code-unit
offsets (`stop` models the `end` field, whose name is reserved in Lean),
raw proposed replacement, and the clipped context window. -/
structure Match where
  text : LC
  start : ℕ
  stop : ℕ
  replacement : LC
  context : LC
deriving DecidableEq

/-- The scan loop of `preview`: `pattern.finditer`, one record per
non-overlapping match, replacement looked up by the lowercased surface
with the surface itself as fallback, context clipped to the text. -/
def previewScan (m : ℕ → Option LC) (d : Assoc) (text : LC) (ctx : ℕ) :
    ℕ → ℕ → List Match
  | 0, _ => []
  | fuel + 1, pos =>
    match charAt text pos with
    | none => []
    | some _ =>
      match m pos with
      | some k =>
        if k.length = 0 then previewScan m d text ctx fuel (pos + 1)
        else
          let e := pos + k.length
          let a := pos - ctx
          let b := min text.length (e + ctx)
          let surface := (text.drop pos).take k.length
          { text := surface, start := pos, stop := e,
            replacement := (alookup d (lowerL surface)).getD surface,
            context := (text.drop a).take (b - a) } ::
          previewScan m d text ctx fuel e
      | none => previewScan m d text ctx fuel (pos + 1)

/-- `preview` on an engine state (default context radius ten). -/
def previewS (s : FixerState) (text : LC) (ctx : ℕ) : List Match :=
  previewScan (matchAtD s.combined text) s.combined text ctx text.length 0

theorem keyOrd_length_le {a b : LC} (h : keyOrd a b) : b.length ≤ a.length := by
  rcases h with h | ⟨h, _⟩
  · exact Nat.le_of_lt h
  · exact Nat.le_of_eq h.symm

theorem find?_longest {l : List LC} {p : LC → Bool} {k : LC}
    (hs : List.Sorted keyOrd l) (h : l.find? p = some k) :
    ∀ x ∈ l, p x = true → x.length ≤ k.length := by
  induction l with
  | nil => simp at h
  | cons a as ih =>
    rw [List.sorted_cons] at hs
    by_cases hpa : p a = true
    · rw [List.find?_cons_of_pos _ hpa] at h
      injection h with h
      subst h
      intro x hx _
      rcases List.mem_cons.mp hx with rfl | hx
      · exact Nat.le_refl _
      · exact keyOrd_length_le (hs.1 x hx)
    · rw [List.find?_cons_of_neg _ hpa] at h
      intro x hx hpx
      rcases List.mem_cons.mp hx with rfl | hx
      · exact absurd hpx hpa
      · exact ih hs.2 h x hx hpx

theorem sorted_sortKeys (l : List LC) : List.Sorted keyOrd (sortKeys l) :=
  List.sorted_insertionSort keyOrd l

theorem mem_sortKeys {l : List LC} {k : LC} : k ∈ sortKeys l ↔ k ∈ l :=
  List.mem_insertionSort keyOrd

theorem sorted_aKeys (d : Assoc) : List.Sorted keyOrd (aKeys d) :=
  (sorted_sortKeys (d.map Prod.fst)).filter _

theorem sorted_wKeys (d : Assoc) : List.Sorted keyOrd (wKeys d) :=
  (sorted_sortKeys (d.map Prod.fst)).filter _

theorem mem_aKeys {d : Assoc} {k : LC} (hk : k ∈ d.map Prod.fst)
    (ha : hasApos k = true) : k ∈ aKeys d :=
  List.mem_filter.mpr ⟨mem_sortKeys.mpr hk, ha⟩

theorem mem_wKeys {d : Assoc} {k : LC} (hk : k ∈ d.map Prod.fst)
    (ha : hasApos k = false) : k ∈ wKeys d :=
  List.mem_filter.mpr ⟨mem_sortKeys.mpr hk, by simp [ha]⟩

/-- Two keys that both literally match at the same position overlap
character by character; a plain key can therefore never be strictly
longer than a co-matching apostrophe key, because it would have to
contain the apostrophe character of the shorter key. -/
theorem apos_cross {k kp rest : LC} (ha : hasApos k = true)
    (hw : hasApos kp = false) (hm : litMatch k rest = true)
    (hmp : litMatch kp rest = true) : kp.length ≤ k.length := by
  by_contra hgt
  have hlt : k.length < kp.length := Nat.lt_of_not_le hgt
  obtain ⟨c, hcmem, hc⟩ := List.any_eq_true.mp ha
  obtain ⟨⟨i, hi⟩, rfl⟩ := List.mem_iff_get.mp hcmem
  have h1 := litMatch_get hm i hi
  have h2 := litMatch_get hmp i (Nat.lt_trans hi hlt)
  have hri : (⟨i, Nat.lt_of_lt_of_le hi (litMatch_length hm)⟩ : Fin rest.length) =
      ⟨i, Nat.lt_of_lt_of_le (Nat.lt_trans hi hlt) (litMatch_length hmp)⟩ := rfl
  have heq : kp.get ⟨i, Nat.lt_trans hi hlt⟩ = k.get ⟨i, hi⟩ := by
    rw [h1, h2]
  have : hasApos kp = true := by
    refine List.any_eq_true.mpr ⟨kp.get ⟨i, Nat.lt_trans hi hlt⟩, List.get_mem _ _ _, ?_⟩
    rw [heq]
    exact hc
  rw [this] at hw
  simp at hw

/-- A dictionary key is eligible at a position when it belongs to the
table and the literal match together with the boundary conditions of its
partition of the compiled pattern hold there. -/
def eligKey (d : Assoc) (k text : LC) (pos : ℕ) : Prop :=
  k ∈ d.map Prod.fst ∧
  (hasApos k = true → aElig k text pos = true) ∧
  (hasApos k = false → wElig k text pos = true)

instance (d : Assoc) (k text : LC) (pos : ℕ) : Decidable (eligKey d k text pos) := by
  unfold eligKey
  infer_instance

/-- C2.  The compiled forward matcher selects, at every position of every
text, a longest eligible dictionary key: the selected key is itself
eligible, and every eligible key — apostrophe-bearing or plain, in either
partition — is no longer than the selected one.  In particular a longer
multi-word key is preferred over any shorter key that could also start at
the same position. -/
theorem c2_longest_match (d : Assoc) (text : LC) (pos : ℕ) (k : LC)
    (hm : matchAtD d text pos = some k) :
    eligKey d k text pos ∧
    ∀ kp, eligKey d kp text pos → kp.length ≤ k.length := by
  unfold matchAtD at hm
  rcases hfa : (aKeys d).find? (fun k => aElig k text pos) with _ | k0
  · rw [hfa] at hm
    simp only at hm
    have hkW : k ∈ wKeys d := List.mem_of_find?_eq_some hm
    have hwe : wElig k text pos = true := by
      have := List.find?_some hm
      simpa using this
    have hknap : hasApos k = false := by
      have := (List.mem_filter.mp hkW).2
      simpa using this
    have hkmem : k ∈ d.map Prod.fst :=
      mem_sortKeys.mp (List.mem_filter.mp hkW).1
    refine ⟨⟨hkmem, ?_, fun _ => hwe⟩, ?_⟩
    · intro h; rw [h] at hknap; exact absurd hknap (by simp)
    · intro kp ⟨hpm, hpe1, hpe2⟩
      by_cases hap : hasApos kp = true
      · have hae := hpe1 hap
        have : kp ∈ aKeys d := mem_aKeys hpm hap
        have := List.find?_eq_none.mp hfa kp this
        exact absurd hae (by simpa using this)
      · have hap' : hasApos kp = false := by simpa using hap
        have hwep := hpe2 hap'
        exact find?_longest (sorted_wKeys d) hm kp (mem_wKeys hpm hap') hwep
  · rw [hfa] at hm
    have hk0 : k0 = k := by injection hm
    subst hk0
    have hkA : k0 ∈ aKeys d := List.mem_of_find?_eq_some hfa
    have hae : aElig k0 text pos = true := by
      have := List.find?_some hfa
      simpa using this
    have hkap : hasApos k0 = true := (List.mem_filter.mp hkA).2
    have hkmem : k0 ∈ d.map Prod.fst :=
      mem_sortKeys.mp (List.mem_filter.mp hkA).1
    refine ⟨⟨hkmem, fun _ => hae, ?_⟩, ?_⟩
    · intro h; rw [hkap] at h; exact absurd h (by simp)
    · intro kp ⟨hpm, hpe1, hpe2⟩
      by_cases hap : hasApos kp = true
      · exact find?_longest (sorted_aKeys d) hfa kp (mem_aKeys hpm hap) (hpe1 hap)
      · have hap' : hasApos kp = false := by simpa using hap
        have hwep := hpe2 hap'
        have hlk : litMatch k0 (text.drop pos) = true := by
          have := hae
          simp only [aElig, Bool.and_eq_true] at this
          exact this.1.1
        have hlkp : litMatch kp (text.drop pos) = true := by
          simp only [wElig, Bool.and_eq_true] at hwep
          exact hwep.1.1
        exact apos_cross hkap hap' hlk hlkp

/-- Forward table for the C2 witness: the multi-word key and a shorter
key that can both start at position zero. -/
def d2 : Assoc :=
  [("would have".toList, "wh".toList), ("would".toList, "w".toList)]

/-- Witness for C2: on the text `would have it` at position zero both
keys are eligible and the matcher picks the longer `would have`. -/
theorem c2_witness :
    matchAtD d2 "would have it".toList 0 = some ("would have".toList) ∧
    eligKey d2 ("would".toList) "would have it".toList 0 ∧
    ("would".toList).length ≤ ("would have".toList).length := by
  refine ⟨by decide, by decide, ?_⟩
  exact (c2_longest_match d2 "would have it".toList 0 ("would have".toList)
    (by decide)).2 ("would".toList) (by decide)

/-- A concrete apostrophe-s token with an ambiguous base: `dog` is in
neither fixed word set, does not end in s/x/z/ch/sh, and starts with a
lowercase letter. -/
def dogS : LC := "dog".toList ++ [aposA, 's']

/-- C1 counterexample: the token `dog + apostrophe + s` ends in the
apostrophe-s suffix, its base is in neither fixed set, yet the
disambiguator classifies it as a contraction (`true`), not as a
possessive — the claimed default-deny does not exist in the code. -/
theorem c1_counterexample :
    (endsWithL aposAS dogS || endsWithL aposTS dogS) = true ∧
    memL contractionBases (sBase dogS) = false ∧
    memL timeWords (sBase dogS) = false ∧
    isContractionS dogS = true := by decide

/-- C1 amended.  For a matched apostrophe-s token whose stripped,
lowercased base is in neither fixed word set, the disambiguator returns
contraction exactly when the token has length at least three, the base
does not end in s/x/z/ch/sh, and the first character is not uppercase;
in every other case (including all uppercase-initial or sibilant-ending
bases) it returns possessive.  Ambiguous lowercase-initial bases are
therefore guessed as contractions, not protected as possessives. -/
theorem c1_ambiguous_base (w : LC)
    (_hend : (endsWithL aposAS w || endsWithL aposTS w) = true)
    (hb : memL contractionBases (sBase w) = false)
    (ht : memL timeWords (sBase w) = false) :
    isContractionS w = true ↔
      (3 ≤ w.length ∧ endsSXZ (sBase w) = false ∧ firstUpper w = false) := by
  unfold isContractionS
  by_cases hlen : w.length < 3
  · simp only [if_pos hlen]
    constructor
    · intro h; exact absurd h (by simp)
    · intro ⟨h3, _⟩; omega
  · have h3 : 3 ≤ w.length := by omega
    rw [if_neg hlen, hb, ht]
    by_cases hsxz : endsSXZ (sBase w) = true
    · simp [hsxz]
    · have hsxz' : endsSXZ (sBase w) = false := by simpa using hsxz
      simp [hsxz', h3, Bool.not_eq_true']

/-- Witness for the amended C1 at the concrete token: the conditions
hold and the classification is contraction. -/
theorem c1_witness : isContractionS dogS = true :=
  (c1_ambiguous_base dogS (by decide) (by decide) (by decide)).mpr
    ⟨by decide, by decide, by decide⟩

/-- Modelled from the spec wording of C3: a replacement whose first
letter only is upper-capitalized with the rest unchanged as stored.
The source instead calls Python `capitalize`, which also lowercases the
rest; this definition is the comparison point for the refinement. -/
def specFirstCapOnly (r : LC) : LC :=
  match r with
  | [] => []
  | c :: cs => pyUpper c :: cs

/-- C3 counterexample: the surface `Ab` has only its first letter
uppercase, the stored expansion `cD` keeps an uppercase letter in its
tail, and the code emits `Cd` — the tail is lowercased, not left
unchanged as the claim states. -/
theorem c3_counterexample :
    pyIsUpper ['A', 'b'] = false ∧
    firstUpper ['A', 'b'] = true ∧
    recase ['A', 'b'] ['c', 'D'] = ['C', 'd'] ∧
    recase ['A', 'b'] ['c', 'D'] ≠ specFirstCapOnly ['c', 'D'] := by decide

/-- C3 amended.  The replacement casing follows Python semantics: a
fully-uppercase surface (at least one letter and no lowercase letter)
uppercases the whole stored expansion; otherwise a surface starting with
an uppercase letter yields Python `capitalize` of the expansion — first
character uppercased and the whole tail lowercased, not left as stored;
otherwise the expansion is emitted exactly as stored. -/
theorem c3_recase (m r : LC) :
    (pyIsUpper m = true ↔
      ((∃ c ∈ m, c.isAlpha = true) ∧ ∀ c ∈ m, c.isAlpha = true → c.isUpper = true)) ∧
    (pyIsUpper m = true → recase m r = r.map pyUpper) ∧
    (pyIsUpper m = false → firstUpper m = true → recase m r = pyCapitalize r) ∧
    (∀ c cs, pyCapitalize (c :: cs) = pyUpper c :: cs.map pyLower) ∧
    (pyIsUpper m = false → firstUpper m = false → recase m r = r) := by
  refine ⟨?_, ?_, ?_, fun c cs => rfl, ?_⟩
  · unfold pyIsUpper
    rw [Bool.and_eq_true, List.any_eq_true, List.all_eq_true]
    constructor
    · intro ⟨h1, h2⟩
      obtain ⟨c, hc, hca⟩ := h1
      refine ⟨⟨c, hc, hca⟩, ?_⟩
      intro x hx hxa
      have := h2 x hx
      rw [hxa] at this
      simpa using this
    · intro ⟨⟨c, hc, hca⟩, h2⟩
      refine ⟨⟨c, hc, hca⟩, ?_⟩
      intro x hx
      by_cases hxa : x.isAlpha = true
      · simp [hxa, h2 x hx hxa]
      · simp [Bool.not_eq_true] at hxa
        simp [hxa]
  · intro h; simp [recase, h]
  · intro h1 h2; simp [recase, h1, h2]
  · intro h1 h2; simp [recase, h1, h2]

/-- Witness for the amended C3: a fully-uppercase surface uppercases the
stored expansion. -/
theorem c3_witness :
    pyIsUpper "AB".toList = true ∧
    recase "AB".toList "xy".toList = "XY".toList := by
  refine ⟨by decide, ?_⟩
  exact ((c3_recase "AB".toList "xy".toList).2.1 (by decide)).trans (by decide)

/-- The default engine state over empty external dictionaries: exactly
the month-abbreviation entries of the constructor. -/
def sM : FixerState := mkState [] [] [] false false

/-- C4 counterexample: the constructor adds eleven month-abbreviation
entries, not twelve. -/
theorem c4_counterexample : monthEntries.length ≠ 12 := by decide

/-- C4 amended.  The constructor adds exactly eleven month-abbreviation
entries — one for each month except May, which is absent from the
source month tuple — each mapping the three-letter abbreviation plus a
period to the full month name, and each present in the combined table
after construction. -/
theorem c4_eleven_months :
    monthEntries.length = 11 ∧
    memL (monthEntries.map Prod.fst) ("may.".toList) = false ∧
    ∀ p ∈ monthEntries,
      p.1 = p.2.take 3 ++ [dotC] ∧ alookup sM.combined p.1 = some p.2 := by
  decide

/-- An adversarial vocabulary demonstrating that one fix pass can leave
new matchable keys behind: the expansion of `x` contains the key `y`. -/
def d6 : Assoc := [("x".toList, "y z".toList), ("y".toList, "w".toList)]

/-- C6 counterexample: with a vocabulary whose stored expansion contains
another dictionary key, a second fix pass changes the output again, so
fix is not idempotent for arbitrary loaded tables. -/
theorem c6_counterexample :
    fixD d6 (fixD d6 "x".toList) ≠ fixD d6 "x".toList := by decide

/-- C6 amended.  Whenever the output of one fix pass contains no
position at which the forward matcher still fires, a second pass
returns that output unchanged, so fix is idempotent on such inputs.
Unconditional idempotence fails for vocabularies whose expansions
reintroduce dictionary keys. -/
theorem c6_conditional (d : Assoc) (t : LC)
    (h : ∀ p, p < (fixD d t).length → matchAtD d (fixD d t) p = none) :
    fixD d (fixD d t) = fixD d t := by
  have hs := scanSub_no_match (matchAtD d (fixD d t)) (replaceMatch d)
    (fixD d t) (fixD d t).length 0 h (by omega)
  simpa [fixD] using hs

/-- Witness for the amended C6: a text whose fix output admits no
further match. -/
theorem c6_witness :
    fixD d6 (fixD d6 "hello".toList) = fixD d6 "hello".toList :=
  c6_conditional d6 "hello".toList (by decide)

/-- Base state for C7, modelled from the spec: the external standard
dictionary is absent from the sources, so the single entry the spec
example requires (`i + apostrophe + m` mapping to `I am`) stands in for
it. -/
def s7 : FixerState :=
  mkState [("i".toList ++ [aposA] ++ "m".toList, "I am".toList)] [] [] false false

/-- The key added and removed in the C7 example. -/
def gonnaLC : LC := "gonna".toList

/-- The expansion added in the C7 example. -/
def goingToLC : LC := "going to".toList

/-- The C7 example input. -/
def imGonna : LC := "I".toList ++ [aposA] ++ "m gonna do it".toList

/-- C7.  After `add_contraction` of `gonna` the new entry participates in
the very next fix — the mutation invalidates the compiled matcher and
memoized results — and after the matching `remove_contraction` the same
input leaves `gonna` untouched while the rest still expands. -/
theorem c7_mutation_visible :
    fixS (addContraction s7 gonnaLC goingToLC) imGonna =
      "I am going to do it".toList ∧
    fixS (removeContraction (addContraction s7 gonnaLC goingToLC) gonnaLC)
      imGonna = "I am gonna do it".toList := by decide

/-- C8.  The runtime text operations are total by construction in this
model; moreover fix of the empty string is the empty string, contract of
the empty string is the empty string, and a text at which the matcher
never fires is returned byte-identically. -/
theorem c8_totality (d r : Assoc) (text : LC)
    (h : ∀ p, p < text.length → matchAtD d text p = none) :
    fixD d [] = [] ∧ contractD r [] = [] ∧ fixD d text = text := by
  refine ⟨rfl, rfl, ?_⟩
  have hs := scanSub_no_match (matchAtD d text) (replaceMatch d)
    text text.length 0 h (by omega)
  simpa [fixD] using hs

/-- Witness for C8 on the default month-only state and a text with no
recognizable token. -/
theorem c8_witness :
    fixD sM.combined "no contractions here".toList =
      "no contractions here".toList :=
  (c8_totality sM.combined sM.reverse "no contractions here".toList
    (by decide)).2.2

theorem month_keys_shape :
    ∀ mk ∈ wKeys sM.combined, mk.length = 4 ∧ mk.get? 3 = some dotC := by
  decide

/-- C9.  In the month-only state all keys sit in the plain-word
partition (the apostrophe partition is empty), and a month-abbreviation
key whose trailing period is followed by a non-word character or by the
end of the text can never satisfy its trailing boundary, so fix returns
such a text unchanged. -/
theorem c9_month_boundary (text : LC)
    (h : ∀ p, p < text.length → ∀ mk, mk ∈ wKeys sM.combined →
        litMatch mk (text.drop p) = true → isWordAt text (p + 4) = false) :
    aKeys sM.combined = [] ∧ fixS sM text = text := by
  have hA : aKeys sM.combined = [] := by decide
  refine ⟨hA, ?_⟩
  have hnone : ∀ p, p < text.length → matchAtD sM.combined text p = none := by
    intro p hp
    unfold matchAtD
    rw [hA]
    simp only [List.find?_nil]
    apply List.find?_eq_none.mpr
    intro mk hmk
    simp only [Bool.not_eq_true]
    obtain ⟨hlen4, hdot⟩ := month_keys_shape mk hmk
    by_cases hlit : litMatch mk (text.drop p) = true
    · have hle : 4 ≤ text.length - p := by
        have := litMatch_length hlit
        rw [hlen4] at this
        simpa using this
      have hp3 : p + 3 < text.length := by omega
      have hi3 : (3 : ℕ) < mk.length := by omega
      have hget := litMatch_get hlit 3 hi3
      have hdrop : (text.drop p).get
          ⟨3, Nat.lt_of_lt_of_le hi3 (litMatch_length hlit)⟩ =
          text.get ⟨p + 3, hp3⟩ := by
        have := List.getElem_drop text
          (i := p) (j := 3)
          (h := by simpa using Nat.lt_of_lt_of_le hi3 (litMatch_length hlit))
        simpa [List.get_eq_getElem] using this
      have hdotv : mk.get ⟨3, hi3⟩ = dotC := by
        have := List.get?_eq_get hi3
        rw [this] at hdot
        injection hdot
      have hw3 : isWordAt text (p + 3) = false := by
        have h1 : isWordChar (text.get ⟨p + 3, hp3⟩) = false := by
          have h2 : pyLower (text.get ⟨p + 3, hp3⟩) = dotC := by
            rw [← hdrop, ← hget, hdotv]
          have h3 := isWordChar_pyLower (text.get ⟨p + 3, hp3⟩)
          rw [h2] at h3
          rw [← h3]
          decide
        simp only [isWordAt, charAt, List.get?_eq_get hp3, h1]
      have hw4 : isWordAt text (p + 4) = false := h p hp mk hmk hlit
      have hwb : wordBoundary text (p + 4) = false := by
        have : p + 4 - 1 = p + 3 := by omega
        simp [wordBoundary, this, hw3, hw4]
      simp only [wElig, hlen4, Bool.and_eq_false_iff]
      right
      exact hwb
    · simp only [wElig, Bool.and_eq_false_iff]
      left; left
      exact Bool.eq_false_iff.mpr hlit
  have hs := scanSub_no_match (matchAtD sM.combined text) (replaceMatch sM.combined)
    text text.length 0 hnone (by omega)
  simpa [fixS, fixD] using hs

/-- Witness for C9: every month abbreviation in the text is followed by
a space or ends the text, and fix leaves the text unchanged. -/
theorem c9_witness :
    fixS sM "due jan. and dec.".toList = "due jan. and dec.".toList :=
  (c9_month_boundary "due jan. and dec.".toList (by decide)).2

/-- The month-only state extended with a sibilant-base apostrophe-s key,
whose disambiguator verdict is possessive. -/
def sB : FixerState :=
  addContraction sM ("boss".toList ++ [aposA, 's']) "boss is".toList

/-- C10.  Preview reports the raw stored expansion looked up by the
lowercased surface, with no re-casing and no possessive disambiguation:
on the fully-uppercase match `JAN.X` preview reports the lowercase
stored `january` while fix substitutes `JANUARY`, and on the
apostrophe-s token with sibilant base preview reports the stored
expansion while fix leaves the token untouched as a possessive. -/
theorem c10_preview_raw :
    (previewS sM "JAN.X".toList 10).map Match.replacement =
      ["january".toList] ∧
    fixS sM "JAN.X".toList = "JANUARYX".toList ∧
    (previewS sB ("boss".toList ++ [aposA, 's']) 10).map Match.replacement =
      ["boss is".toList] ∧
    fixS sB ("boss".toList ++ [aposA, 's']) = "boss".toList ++ [aposA, 's'] := by
  decide

/-- A pair of the standard table is a reverse-dictionary candidate for
expansion `e` with contraction `c`: its key is `c`, its lowercased value
is `e`, the expansion is on the safe allow-list, and the contraction
contains an ASCII apostrophe and has length above two — the admission
test of `_build_reverse_dict_optimized`. -/
def isCand (standard : Assoc) (e c : LC) : Prop :=
  ∃ p ∈ standard, p.1 = c ∧ lowerL p.2 = e ∧
    memL safeContractions e = true ∧ hasAposA c = true ∧ 2 < c.length

instance (standard : Assoc) (e c : LC) : Decidable (isCand standard e c) := by
  unfold isCand
  infer_instance

theorem isCand_append {standard : Assoc} {p : LC × LC} {e c : LC} :
    isCand (standard ++ [p]) e c ↔
      isCand standard e c ∨
      (p.1 = c ∧ lowerL p.2 = e ∧ memL safeContractions e = true ∧
       hasAposA c = true ∧ 2 < c.length) := by
  unfold isCand
  constructor
  · intro ⟨q, hq, hrest⟩
    rcases List.mem_append.mp hq with hq | hq
    · exact Or.inl ⟨q, hq, hrest⟩
    · rcases List.mem_singleton.mp hq with rfl
      exact Or.inr hrest
  · intro h
    rcases h with ⟨q, hq, hrest⟩ | hp
    · exact ⟨q, List.mem_append.mpr (Or.inl hq), hrest⟩
    · exact ⟨p, List.mem_append.mpr (Or.inr (List.mem_singleton.mpr rfl)), hp⟩

/-- Invariant of the reverse-dictionary construction loop relative to
the prefix of the standard table already processed: every registered
entry is a candidate, no non-apostrophe-prefixed candidate is shorter
than a registered non-apostrophe-prefixed entry, an apostrophe-prefixed
entry persists only while no non-apostrophe-prefixed candidate has been
seen, and every expansion with a candidate is registered. -/
def RevInv (processed acc : Assoc) : Prop :=
  (∀ e c, alookup acc e = some c →
    isCand processed e c ∧
    ∀ cp, isCand processed e cp → startsApos cp = false →
      startsApos c = false ∧ c.length ≤ cp.length) ∧
  (∀ e cp, isCand processed e cp → (alookup acc e).isSome = true)

theorem revInv_nil : RevInv [] [] := by
  constructor
  · intro e c h
    simp [alookup] at h
  · intro e cp h
    obtain ⟨p, hp, _⟩ := h
    simp at hp

theorem revStep_inv {processed acc : Assoc} (h : RevInv processed acc)
    (p : LC × LC) : RevInv (processed ++ [p]) (revStep acc p) := by
  obtain ⟨h1, h2⟩ := h
  by_cases hcond :
      (memL safeContractions (lowerL p.2) && hasAposA p.1 &&
        decide (2 < p.1.length)) = true
  · simp only [Bool.and_eq_true, decide_eq_true_eq] at hcond
    obtain ⟨⟨hsafe, hapos⟩, hlen⟩ := hcond
    have hstep : revStep acc p =
        match alookup acc (lowerL p.2) with
        | none => ainsert acc (lowerL p.2) p.1
        | some ex =>
          if (!startsApos p.1 && startsApos ex) ||
             (decide (p.1.length < ex.length) && !startsApos p.1) then
            ainsert acc (lowerL p.2) p.1
          else acc := by
      simp [revStep, hsafe, hapos, hlen]
    have hnewCand : isCand (processed ++ [p]) (lowerL p.2) p.1 :=
      isCand_append.mpr (Or.inr ⟨rfl, rfl, hsafe, hapos, hlen⟩)
    rcases hex : alookup acc (lowerL p.2) with _ | ex
    · have hstep2 : revStep acc p = ainsert acc (lowerL p.2) p.1 := by
        rw [hstep, hex]
      rw [hstep2]
      constructor
      · intro e c hc
        by_cases he : e = lowerL p.2
        · subst he
          rw [alookup_ainsert_self] at hc
          have hc' : p.1 = c := by injection hc
          subst hc'
          refine ⟨hnewCand, ?_⟩
          intro cp hcp hcpa
          rcases isCand_append.mp hcp with hold | hnew
          · have := h2 (lowerL p.2) cp hold
            rw [hex] at this
            simp at this
          · obtain ⟨rfl, _⟩ := hnew
            exact ⟨hcpa, Nat.le_refl _⟩
        · rw [alookup_ainsert_ne _ _ _ _ he] at hc
          obtain ⟨hcand, hmin⟩ := h1 e c hc
          refine ⟨isCand_append.mpr (Or.inl hcand), ?_⟩
          intro cp hcp hcpa
          rcases isCand_append.mp hcp with hold | hnew
          · exact hmin cp hold hcpa
          · obtain ⟨_, he2, _⟩ := hnew
            exact absurd he2 (fun x => he x.symm)
      · intro e cp hcp
        by_cases he : e = lowerL p.2
        · subst he
          rw [alookup_ainsert_self]
          rfl
        · rw [alookup_ainsert_ne _ _ _ _ he]
          rcases isCand_append.mp hcp with hold | hnew
          · exact h2 e cp hold
          · obtain ⟨_, he2, _⟩ := hnew
            exact absurd he2 (fun x => he x.symm)
    · obtain ⟨hexCand, hexMin⟩ := h1 (lowerL p.2) ex hex
      by_cases hrep :
          ((!startsApos p.1 && startsApos ex) ||
           (decide (p.1.length < ex.length) && !startsApos p.1)) = true
      · have hstep2 : revStep acc p = ainsert acc (lowerL p.2) p.1 := by
          rw [hstep, hex]
          exact if_pos hrep
        rw [hstep2]
        constructor
        · intro e c hc
          by_cases he : e = lowerL p.2
          · subst he
            rw [alookup_ainsert_self] at hc
            have hc' : p.1 = c := by injection hc
            subst hc'
            refine ⟨hnewCand, ?_⟩
            intro cp hcp hcpa
            have hrep' : (startsApos p.1 = false ∧ startsApos ex = true) ∨
                (p.1.length < ex.length ∧ startsApos p.1 = false) := by
              have hh := hrep
              simp only [Bool.or_eq_true, Bool.and_eq_true,
                Bool.not_eq_true', decide_eq_true_eq] at hh
              exact hh
            have hpa : startsApos p.1 = false := by
              rcases hrep' with ⟨hh1, _⟩ | ⟨_, hh1⟩ <;> exact hh1
            refine ⟨hpa, ?_⟩
            rcases isCand_append.mp hcp with hold | hnew
            · have hexm := hexMin cp hold hcpa
              rcases hrep' with ⟨_, hh⟩ | ⟨hh, _⟩
              · rw [hexm.1] at hh
                simp at hh
              · exact Nat.le_of_lt (Nat.lt_of_lt_of_le hh hexm.2)
            · obtain ⟨rfl, _⟩ := hnew
              exact Nat.le_refl _
          · rw [alookup_ainsert_ne _ _ _ _ he] at hc
            obtain ⟨hcand, hmin⟩ := h1 e c hc
            refine ⟨isCand_append.mpr (Or.inl hcand), ?_⟩
            intro cp hcp hcpa
            rcases isCand_append.mp hcp with hold | hnew
            · exact hmin cp hold hcpa
            · obtain ⟨_, he2, _⟩ := hnew
              exact absurd he2 (fun x => he x.symm)
        · intro e cp hcp
          by_cases he : e = lowerL p.2
          · subst he
            rw [alookup_ainsert_self]
            rfl
          · rw [alookup_ainsert_ne _ _ _ _ he]
            rcases isCand_append.mp hcp with hold | hnew
            · exact h2 e cp hold
            · obtain ⟨_, he2, _⟩ := hnew
              exact absurd he2 (fun x => he x.symm)
      · have hstep2 : revStep acc p = acc := by
          rw [hstep, hex]
          exact if_neg hrep
        rw [hstep2]
        constructor
        · intro e c hc
          by_cases he : e = lowerL p.2
          · subst he
            rw [hex] at hc
            have hc' : ex = c := by injection hc
            subst hc'
            refine ⟨isCand_append.mpr (Or.inl hexCand), ?_⟩
            intro cp hcp hcpa
            rcases isCand_append.mp hcp with hold | hnew
            · exact hexMin cp hold hcpa
            · obtain ⟨rfl, _⟩ := hnew
              have hnot : ¬((startsApos p.1 = false ∧ startsApos ex = true) ∨
                  (p.1.length < ex.length ∧ startsApos p.1 = false)) := by
                intro hh
                apply hrep
                simp only [Bool.or_eq_true, Bool.and_eq_true,
                  Bool.not_eq_true', decide_eq_true_eq]
                exact hh
              have hse : startsApos ex = false := by
                by_contra hexa
                have hexa' : startsApos ex = true := by simpa using hexa
                exact hnot (Or.inl ⟨hcpa, hexa'⟩)
              have hlen2 : ex.length ≤ p.1.length := by
                by_contra hl
                exact hnot (Or.inr ⟨by omega, hcpa⟩)
              exact ⟨hse, hlen2⟩
          · obtain ⟨hcand, hmin⟩ := h1 e c hc
            refine ⟨isCand_append.mpr (Or.inl hcand), ?_⟩
            intro cp hcp hcpa
            rcases isCand_append.mp hcp with hold | hnew
            · exact hmin cp hold hcpa
            · obtain ⟨_, he2, _⟩ := hnew
              exact absurd he2 (fun x => he x.symm)
        · intro e cp hcp
          by_cases he : e = lowerL p.2
          · subst he
            rw [hex]
            rfl
          · rcases isCand_append.mp hcp with hold | hnew
            · exact h2 e cp hold
            · obtain ⟨_, he2, _⟩ := hnew
              exact absurd he2 (fun x => he x.symm)
  · have hstep : revStep acc p = acc := by
      unfold revStep
      rw [if_neg]
      intro hh
      exact hcond hh
    rw [hstep]
    have hsame : ∀ e c, isCand (processed ++ [p]) e c ↔ isCand processed e c := by
      intro e c
      constructor
      · intro hc
        rcases isCand_append.mp hc with hold | hnew
        · exact hold
        · obtain ⟨rfl, rfl, hsafe, hapos, hlen⟩ := hnew
          exact absurd (by simp [hsafe, hapos, hlen]) hcond
      · intro hc
        exact isCand_append.mpr (Or.inl hc)
    constructor
    · intro e c hc
      obtain ⟨hcand, hmin⟩ := h1 e c hc
      exact ⟨(hsame e c).mpr hcand,
        fun cp hcp hcpa => hmin cp ((hsame e cp).mp hcp) hcpa⟩
    · intro e cp hcp
      exact h2 e cp ((hsame e cp).mp hcp)

theorem foldl_revStep_inv :
    ∀ (rest processed acc : Assoc), RevInv processed acc →
      RevInv (processed ++ rest) (rest.foldl revStep acc) := by
  intro rest
  induction rest with
  | nil =>
    intro processed acc h
    simpa using h
  | cons p rest ih =>
    intro processed acc h
    have h1 := revStep_inv h p
    have h2 := ih (processed ++ [p]) (revStep acc p) h1
    rw [List.append_assoc] at h2
    simpa using h2

/-- C5 counterexample ingredients: a standard table whose only candidate
for `am not` is the non-apostrophe-prefixed `amn + apostrophe + t`. -/
def amnt : LC := "amn".toList ++ [aposA, 't']

/-- An apostrophe-prefixed shorter contraction later added at runtime. -/
def mntApos : LC := [aposA] ++ "mnt".toList

/-- The expansion of the C5 example. -/
def amNotS : LC := "am not".toList

/-- Engine state built from the one-candidate standard table. -/
def sC5 : FixerState := mkState [(amnt, amNotS)] [] [] false false

/-- C5 counterexample: `add_contraction` registers the strictly shorter
apostrophe-prefixed key over the existing non-apostrophe-prefixed one —
the construction tie-break is not preserved by mutation, so after the
call the registered contraction for `am not` is apostrophe-prefixed even
though a non-apostrophe-prefixed contraction for the same expansion
remains in the forward table. -/
theorem c5_counterexample :
    alookup (addContraction sC5 mntApos amNotS).reverse amNotS =
      some mntApos ∧
    startsApos mntApos = true ∧
    alookup (addContraction sC5 mntApos amNotS).combined amnt =
      some amNotS ∧
    startsApos amnt = false ∧
    mntApos.length < amnt.length := by decide

/-- C5 amended.  The reverse table is a map, so it holds at most one
contraction per expansion.  After the construction pass over the
standard table the registered contraction is always a candidate, and
whenever any non-apostrophe-prefixed candidate exists the registered
contraction is non-apostrophe-prefixed and of minimal length among such
candidates; every expansion with a candidate is registered.  This
construction invariant is not preserved by `add_contraction`, which
replaces the entry by any strictly shorter apostrophe-containing key
regardless of the apostrophe-prefix tie-break. -/
theorem c5_reverse_invariant (standard : Assoc) (e : LC) :
    (∀ c, alookup (buildReverseStd standard) e = some c →
      isCand standard e c ∧
      ∀ cp, isCand standard e cp → startsApos cp = false →
        startsApos c = false ∧ c.length ≤ cp.length) ∧
    (∀ cp, isCand standard e cp →
      (alookup (buildReverseStd standard) e).isSome = true) := by
  have h := foldl_revStep_inv standard [] [] revInv_nil
  rw [List.nil_append] at h
  exact ⟨fun c hc => h.1 e c hc, fun cp hcp => h.2 e cp hcp⟩

/-- Witness for the amended C5: on the concrete one-candidate table the
registered contraction is the candidate itself, non-apostrophe-prefixed
and of minimal length. -/
theorem c5_witness :
    startsApos amnt = false ∧ amnt.length ≤ amnt.length :=
  ((c5_reverse_invariant (loadDict [(amnt, amNotS)]) (lowerL amNotS)).1
    amnt (by decide)).2 amnt (by decide) (by decide)

end ContractionFix
